import Mathlib

/-!
# Verification of the watcher-benchmark core

A shallow embedding of the core watching engine of the benchmark repository
(`src/main.rs`, `src/recursive_file_watcher.rs`) together with proofs about
it.  Paths are modelled as lists of components, the filesystem as a finite
tree whose directories carry a readability flag (modelling `fs::read_dir`
failure), the notify backend's `Result<Event>` as `Except`, the mpsc channel
as a queue with a connected flag, and Rust panics (`%` by zero) as `Option`.
-/

namespace WatcherBench

/-- A filesystem path, as its list of components. -/
abbrev Path : Type := List String

/-! ## Filesystem model (collaborator of `collect_files_recursive`)

A directory entry is a regular file, a non-regular entry (socket, device,
dangling link — neither `is_dir` nor `is_file`), or a directory.  The `Bool`
on a directory records whether `fs::read_dir` succeeds on it. -/

mutual

inductive FsEntry : Type where
  | file : FsEntry
  | other : FsEntry
  | dir : Bool → FsDir → FsEntry
deriving DecidableEq

inductive FsDir : Type where
  | nil : FsDir
  | cons : String → FsEntry → FsDir → FsDir
deriving DecidableEq

end

/-! ## Path enumerator (`collect_files_recursive`, recursive_file_watcher.rs 10-30)

`collect_files_recursive_impl` mirrors the Rust helper: `fs::read_dir`
succeeding is the `dir true` arm (on a non-directory or an unreadable
directory `read_dir` fails and the body is skipped); for each entry, a
directory is recursed into and a regular file is pushed with its full path;
other entries are ignored. -/

mutual

def collect_files_recursive_impl : List String → FsEntry → List Path
  | base, .dir true d => collectDirEntries base d
  | _, .file => []
  | _, .other => []
  | _, .dir false _ => []

def collectDirEntries : List String → FsDir → List Path
  | _, .nil => []
  | base, .cons name e rest =>
    (match e with
     | .dir _ _ => collect_files_recursive_impl (base ++ [name]) e
     | .file => [base ++ [name]]
     | .other => []) ++ collectDirEntries base rest

end

/-- `collect_files_recursive` (recursive_file_watcher.rs 10-14): run the
helper on the root with an empty accumulator. -/
def collect_files_recursive (t : FsEntry) : List Path :=
  collect_files_recursive_impl [] t

/-! Structural measures and wellformedness of a filesystem tree.  These do
not come from the source: they state what a concrete tree contains so the
enumerator's output can be compared with it. -/

mutual

/-- Number of regular files in the tree (readable or not). -/
def countFiles : FsEntry → Nat
  | .file => 1
  | .other => 0
  | .dir _ d => countFilesD d

def countFilesD : FsDir → Nat
  | .nil => 0
  | .cons _ e rest => countFiles e + countFilesD rest

end

mutual

/-- Every directory in the tree can be opened. -/
def allReadable : FsEntry → Bool
  | .file => true
  | .other => true
  | .dir b d => b && allReadableD d

def allReadableD : FsDir → Bool
  | .nil => true
  | .cons _ e rest => allReadable e && allReadableD rest

end

mutual

/-- The tree has no non-regular entries. -/
def noOther : FsEntry → Bool
  | .file => true
  | .other => false
  | .dir _ d => noOtherD d

def noOtherD : FsDir → Bool
  | .nil => true
  | .cons _ e rest => noOther e && noOtherD rest

end

/-- The names listed in a directory. -/
def dirNames : FsDir → List String
  | .nil => []
  | .cons n _ rest => n :: dirNames rest

mutual

/-- Sibling names are distinct in every directory (a filesystem invariant). -/
def validNames : FsEntry → Bool
  | .file => true
  | .other => true
  | .dir _ d => decide ((dirNames d).Nodup) && validNamesD d

def validNamesD : FsDir → Bool
  | .nil => true
  | .cons _ e rest => validNames e && validNamesD rest

end

/-- First entry of the directory with the given name. -/
def FsDir.find : FsDir → String → Option FsEntry
  | .nil, _ => none
  | .cons n e rest, m => if n = m then some e else FsDir.find rest m

/-- Follow a path from a tree node to the entry it denotes. -/
def resolve : FsEntry → Path → Option FsEntry
  | t, [] => some t
  | .dir _ d, n :: rest =>
    match d.find n with
    | some e => resolve e rest
    | none => none
  | .file, _ :: _ => none
  | .other, _ :: _ => none

mutual

/-- Replace every unreadable directory by an empty readable one: the tree of
exactly the parts of the original tree the walk can reach. -/
def pruneUnreadable : FsEntry → FsEntry
  | .file => .file
  | .other => .other
  | .dir true d => .dir true (pruneUnreadableD d)
  | .dir false _ => .dir true .nil

def pruneUnreadableD : FsDir → FsDir
  | .nil => .nil
  | .cons n e rest => .cons n (pruneUnreadable e) (pruneUnreadableD rest)

end

/-! ## Subset selection (`get_filtered_files`, main.rs 15-27)

The Rust closure computes `i % filter_ratio` for every index as the iterator
is drained; with a zero ratio the first such remainder panics.  The panic is
modelled as `none` of an `Option`-returning checked remainder threaded
through the loop. -/

/-- Rust's `%` on `usize`: panics (here `none`) on a zero divisor. -/
def checkedMod (i k : Nat) : Option Nat :=
  if k = 0 then none else some (i % k)

/-- The enumerate/filter_map/collect loop of `get_filtered_files`, with the
running index made explicit. -/
def gffGo (k : Nat) : Nat → List α → Option (List α)
  | _, [] => some []
  | i, p :: rest =>
    match checkedMod i k with
    | none => none
    | some r =>
      match gffGo k (i + 1) rest with
      | none => none
      | some tail => some (if r = 0 then p :: tail else tail)

/-- `get_filtered_files` (main.rs 15-27): keep the elements whose index has
remainder zero by the ratio. -/
def get_filtered_files (all_files : List α) (k : Nat) : Option (List α) :=
  gffGo k 0 all_files

/-- The pure value of the loop when the ratio is nonzero. -/
def gffPure (k : Nat) : Nat → List α → List α
  | _, [] => []
  | i, p :: rest =>
    if i % k = 0 then p :: gffPure k (i + 1) rest else gffPure k (i + 1) rest

/-! ## Notification layer (`notify` collaborator) -/

/-- Kind of a change event (create/modify/remove/other). -/
inductive EventKind : Type where
  | create : EventKind
  | modify : EventKind
  | remove : EventKind
  | otherKind : EventKind
deriving DecidableEq

/-- A successful change event: its kind and its associated paths. -/
structure Event : Type where
  kind : EventKind
  paths : List Path
deriving DecidableEq

/-- An error of the notification backend (`notify::Error`), abstract. -/
structure NotifyError : Type where
  code : Nat
deriving DecidableEq

/-- `notify::Result<Event>`: what a watcher callback receives. -/
abbrev NotifyResult : Type := Except NotifyError Event

deriving instance DecidableEq for Except

/-! ## Event channel (`std::sync::mpsc`)

Only what the callbacks observe is modelled: an unbounded queue plus whether
the receiver is still alive.  `send` returns the queue-extended channel and
`true` when connected, and the unchanged channel and `false` (the `Err` of
`Sender::send`) when the receiver was dropped; it never blocks. -/

structure Channel (α : Type) : Type where
  connected : Bool
  queue : List α

def Channel.send {α : Type} (c : Channel α) (x : α) : Channel α × Bool :=
  if c.connected then ({ c with queue := c.queue ++ [x] }, true) else (c, false)

/-! ## Watcher callbacks -/

/-- Callback of `ManualRecursiveWatcher::new_with_files` and of
`NativeRecursiveWatcher::new` (recursive_file_watcher.rs 58-60, 143-145):
`let _ = tx.send(res)` — the send result is discarded. -/
def manual_callback (c : Channel NotifyResult) (res : NotifyResult) :
    Channel NotifyResult :=
  (c.send res).1

/-- Decision taken by the closure of `new_with_filter`
(recursive_file_watcher.rs 190-203): on `Ok(event)`, send the notification
iff some associated path is in the filter set; anything else (in particular
every `Err`) falls through the `if let Ok` and nothing is sent.  `some r`
means `r` is handed to `tx.send`; `none` means the notification is dropped
(nothing is recorded about it — there is no counter in the closure). -/
def new_with_filter_callback (filter_files : Finset Path) (res : NotifyResult) :
    Option NotifyResult :=
  match res with
  | Except.ok event =>
    if event.paths.any (fun p => decide (p ∈ filter_files)) then
      some (Except.ok event)
    else
      none
  | Except.error _ => none

/-- The same closure acting on the channel: the decided notification is
pushed with its send result discarded. -/
def new_with_filter_callback_channel (filter_files : Finset Path)
    (c : Channel NotifyResult) (res : NotifyResult) : Channel NotifyResult :=
  match new_with_filter_callback filter_files res with
  | some r => (c.send r).1
  | none => c

/-! ## Filter set construction (recursive_file_watcher.rs 174-180, 242-245) -/

/-- The `filter_files` HashSet of `new_with_filter`: candidates that exist
and are regular files at construction time, collected into a set.  The
filesystem checks `Path::exists` / `Path::is_file` are oracle parameters. -/
def filter_files_set (pexists is_file : Path → Bool) (files_to_watch : List Path) :
    Finset Path :=
  (files_to_watch.filter (fun p => pexists p && is_file p)).toFinset

/-- The part of `FilteredNativeRecursiveWatcher` the claims observe. -/
structure FilteredNativeRecursiveWatcher : Type where
  filter_files : Finset Path

/-- `files_filtered` (recursive_file_watcher.rs 242-245): size of the set. -/
def FilteredNativeRecursiveWatcher.files_filtered
    (w : FilteredNativeRecursiveWatcher) : Nat :=
  w.filter_files.card

/-! ## Per-file registration (`ManualRecursiveWatcher::new_with_files`,
recursive_file_watcher.rs 49-97)

`watcher.watch(file_path, RecursiveMode::NonRecursive)` is an oracle
`w : Path → Except NotifyError Unit`; the `for` loop with `?` stops at the
first failing registration and propagates its error. -/

/-- The registration loop: `for file_path in &files { watcher.watch(..)?; }`. -/
def registerAll (w : Path → Except NotifyError Unit) :
    List Path → Except NotifyError Unit
  | [] => Except.ok ()
  | p :: rest =>
    match w p with
    | Except.error e => Except.error e
    | Except.ok _ => registerAll w rest

/-- The sequence of paths the loop actually hands to `watcher.watch`, in
order (it ends at the first failure). -/
def registerTrace (w : Path → Except NotifyError Unit) : List Path → List Path
  | [] => []
  | p :: rest =>
    match w p with
    | Except.error _ => [p]
    | Except.ok _ => p :: registerTrace w rest

/-- The part of `ManualRecursiveWatcher` the claims observe. -/
structure ManualRecursiveWatcher : Type where
  files_watched : Nat

/-- `ManualRecursiveWatcher::new_with_files`: register every file; on the
first failure the constructor returns that error and no handle. -/
def ManualRecursiveWatcher.new_with_files (w : Path → Except NotifyError Unit)
    (files_to_watch : List Path) : Except NotifyError ManualRecursiveWatcher :=
  match registerAll w files_to_watch with
  | Except.error e => Except.error e
  | Except.ok _ => Except.ok ⟨files_to_watch.length⟩

/-! ## Theorems -/

/-- Claim C1 (corrected), counterexample: at the concrete filter set
`{["a"]}` and the concrete backend error `⟨0⟩`, the filtered callback drops
the error instead of forwarding it — the claim's "forwarded unconditionally"
fails.  The `if let Ok(event) = &res` in the source has no else branch. -/
theorem filtered_error_dropped_cex :
    new_with_filter_callback ({ [ "a" ] } : Finset Path) (Except.error ⟨0⟩) = none :=
  rfl

/-- Claim C1 (corrected, amended): every notification-layer error delivered
to the filtered native watcher's callback is dropped — never forwarded into
the Event Channel — regardless of the contents of the Filter Set. -/
theorem filtered_error_dropped (filter_files : Finset Path) (e : NotifyError) :
    new_with_filter_callback filter_files (Except.error e) = none :=
  rfl

/-- Claim C2: a successful change event delivered to the filtered native
watcher's callback is forwarded into the Event Channel iff at least one of
its associated paths is a member of the Filter Set, and is dropped (nothing
sent, nothing recorded — the model's decision is `none` and the closure has
no counter) iff no associated path is a member. -/
theorem filtered_event_forward_iff (filter_files : Finset Path) (event : Event) :
    (new_with_filter_callback filter_files (Except.ok event) =
        some (Except.ok event) ↔ ∃ p ∈ event.paths, p ∈ filter_files) ∧
    (new_with_filter_callback filter_files (Except.ok event) = none ↔
        ¬ ∃ p ∈ event.paths, p ∈ filter_files) := by
  by_cases hc : ∃ p ∈ event.paths, p ∈ filter_files
  · have hb : (event.paths.any fun p => decide (p ∈ filter_files)) = true := by
      rw [List.any_eq_true]
      obtain ⟨p, hp, hm⟩ := hc
      exact ⟨p, hp, by simpa using hm⟩
    simp [new_with_filter_callback, hb, hc]
  · have hb : (event.paths.any fun p => decide (p ∈ filter_files)) = false := by
      rw [Bool.eq_false_iff]
      intro hany
      rw [List.any_eq_true] at hany
      obtain ⟨p, hp, hm⟩ := hany
      exact hc ⟨p, hp, by simpa using hm⟩
    simp [new_with_filter_callback, hb, hc]

/-- Claim C7: the Filter Set retains exactly the candidates that pass the
`exists`/`is_file` checks at construction time, `files_filtered` reports the
size of the retained set, and that size never exceeds the length of the
caller-supplied candidate list. -/
theorem filter_files_set_spec (pexists is_file : Path → Bool) (cands : List Path) :
    (∀ p : Path, p ∈ filter_files_set pexists is_file cands ↔
        p ∈ cands ∧ pexists p = true ∧ is_file p = true) ∧
    FilteredNativeRecursiveWatcher.files_filtered
        ⟨filter_files_set pexists is_file cands⟩ =
      (filter_files_set pexists is_file cands).card ∧
    (filter_files_set pexists is_file cands).card ≤ cands.length := by
  refine ⟨?_, rfl, ?_⟩
  · intro p
    simp [filter_files_set, List.mem_filter, and_assoc]
  · calc (filter_files_set pexists is_file cands).card
        ≤ (cands.filter (fun p => pexists p && is_file p)).length :=
          List.toFinset_card_le _
      _ ≤ cands.length := List.length_filter_le _ _

/-- Claim C10: the Filter Set is a set — `files_filtered` counts the
distinct passing candidates (duplicates collapse), and at the concrete
candidate list `[["a"], ["a"]]` with both checks true it reports 1 while
2 candidate entries individually pass. -/
theorem filter_files_set_dedup :
    (∀ (pexists is_file : Path → Bool) (cands : List Path),
        FilteredNativeRecursiveWatcher.files_filtered
            ⟨filter_files_set pexists is_file cands⟩ =
          ((cands.filter fun p => pexists p && is_file p).dedup).length) ∧
    FilteredNativeRecursiveWatcher.files_filtered
        ⟨filter_files_set (fun _ => true) (fun _ => true) [[ "a" ], [ "a" ]]⟩ = 1 ∧
    (([[ "a" ], [ "a" ]] : List Path).filter
        (fun p => (fun _ : Path => true) p && (fun _ : Path => true) p)).length = 2 := by
  refine ⟨?_, ?_, rfl⟩
  · intro pexists is_file cands
    simp only [FilteredNativeRecursiveWatcher.files_filtered, filter_files_set,
      List.card_toFinset]
  · rfl

/-- Claim C8: when the channel receiver has been dropped, both watcher
callbacks are total functions that leave the channel unchanged — the send
result (`false` from `Channel.send`, the `Err` of `Sender::send`) is
discarded, nothing is forwarded, and no failure escapes the callback. -/
theorem disconnected_send_discarded (c : Channel NotifyResult)
    (res : NotifyResult) (filter_files : Finset Path)
    (h : c.connected = false) :
    manual_callback c res = c ∧
    new_with_filter_callback_channel filter_files c res = c ∧
    (c.send res).2 = false := by
  have hsend : ∀ x : NotifyResult, c.send x = (c, false) := by
    intro x
    simp [Channel.send, h]
  refine ⟨?_, ?_, ?_⟩
  · simp [manual_callback, hsend]
  · cases hd : new_with_filter_callback filter_files res with
    | none => simp [new_with_filter_callback_channel, hd]
    | some r => simp [new_with_filter_callback_channel, hd, hsend]
  · simp [hsend]

/-- Claim C8, witness: a concrete disconnected channel with a concrete
error notification and an empty filter set. -/
theorem disconnected_send_discarded_witness :
    (Channel.connected ⟨false, ([] : List NotifyResult)⟩ = false) ∧
    (manual_callback ⟨false, []⟩ (Except.error ⟨0⟩) = ⟨false, []⟩ ∧
     new_with_filter_callback_channel (∅ : Finset Path) ⟨false, []⟩
        (Except.error ⟨0⟩) = ⟨false, []⟩ ∧
     (Channel.send ⟨false, []⟩ (Except.error ⟨0⟩ : NotifyResult)).2 = false) :=
  ⟨rfl, disconnected_send_discarded ⟨false, []⟩ (Except.error ⟨0⟩) ∅ rfl⟩

/-- Claim C9: `get_filtered_files` has no guard on the ratio — with ratio 0
it evaluates `0 % 0`, whose panic the model renders as `none`, on every
non-empty input, while the empty input returns the empty list for every
ratio (the closure is never invoked). -/
theorem get_filtered_files_zero_ratio (α : Type) (a : α) (l : List α) (k : Nat) :
    get_filtered_files (a :: l) 0 = none ∧
    get_filtered_files ([] : List α) k = some [] :=
  ⟨rfl, rfl⟩

/-- On a list of paths that all register successfully, the loop succeeds
and attempts every path in input order. -/
theorem registerAll_success (w : Path → Except NotifyError Unit)
    (files : List Path) (hall : ∀ q ∈ files, w q = Except.ok ()) :
    registerAll w files = Except.ok () ∧ registerTrace w files = files := by
  induction files with
  | nil => exact ⟨rfl, rfl⟩
  | cons a l ih =>
    have ha : w a = Except.ok () := hall a (by simp)
    have ih' := ih (fun q hq => hall q (by simp [hq]))
    refine ⟨?_, ?_⟩
    · simp [registerAll, ha, ih'.1]
    · simp [registerTrace, ha, ih'.2]

/-- Claim C3: `new_with_files` registers one watch per path in input order
(`registerTrace`); when every path before `p` registers successfully and
`p`'s registration fails with `e`, the constructor returns exactly that
first failure and no handle, having attempted exactly `pre ++ [p]`;
when every registration succeeds, a handle counting all the files is
returned and every path was attempted in order. -/
theorem new_with_files_first_failure (w : Path → Except NotifyError Unit)
    (pre post : List Path) (p : Path) (e : NotifyError)
    (hpre : ∀ q ∈ pre, w q = Except.ok ())
    (hp : w p = Except.error e) :
    ManualRecursiveWatcher.new_with_files w (pre ++ p :: post) = Except.error e ∧
    registerTrace w (pre ++ p :: post) = pre ++ [p] ∧
    ∀ files : List Path, (∀ q ∈ files, w q = Except.ok ()) →
      ManualRecursiveWatcher.new_with_files w files = Except.ok ⟨files.length⟩ ∧
      registerTrace w files = files := by
  have fail : ∀ pre' : List Path, (∀ q ∈ pre', w q = Except.ok ()) →
      registerAll w (pre' ++ p :: post) = Except.error e ∧
      registerTrace w (pre' ++ p :: post) = pre' ++ [p] := by
    intro pre'
    induction pre' with
    | nil =>
      intro _
      refine ⟨?_, ?_⟩
      · simp [registerAll, hp]
      · simp [registerTrace, hp]
    | cons a l ih =>
      intro h
      have ha : w a = Except.ok () := h a (by simp)
      have ih' := ih (fun q hq => h q (by simp [hq]))
      refine ⟨?_, ?_⟩
      · simp [registerAll, ha, ih'.1]
      · simp [registerTrace, ha, ih'.2]
  refine ⟨?_, (fail pre hpre).2, ?_⟩
  · simp [ManualRecursiveWatcher.new_with_files, (fail pre hpre).1]
  · intro files hall
    have h := registerAll_success w files hall
    exact ⟨by simp [ManualRecursiveWatcher.new_with_files, h.1], h.2⟩

/-- A watch-registration oracle that fails exactly on the path
`["missing"]` — the path that does not exist. -/
def failingWatchOracle : Path → Except NotifyError Unit :=
  fun q => if q = [ "missing" ] then Except.error ⟨7⟩ else Except.ok ()

/-- Claim C3, witness: with input `[["a"], ["missing"], ["b"]]` under
`failingWatchOracle`, construction fails with that first error, having
attempted `["a"]` then `["missing"]` only. -/
theorem new_with_files_first_failure_witness :
    (∀ q ∈ [([ "a" ] : Path)], failingWatchOracle q = Except.ok ()) ∧
    (failingWatchOracle [ "missing" ] = Except.error ⟨7⟩) ∧
    (ManualRecursiveWatcher.new_with_files failingWatchOracle
        ([ [ "a" ] ] ++ [ "missing" ] :: [[ "b" ]]) = Except.error ⟨7⟩ ∧
      registerTrace failingWatchOracle
        ([ [ "a" ] ] ++ [ "missing" ] :: [[ "b" ]]) = [ [ "a" ] ] ++ [[ "missing" ]] ∧
      ∀ files : List Path,
        (∀ q ∈ files, failingWatchOracle q = Except.ok ()) →
        ManualRecursiveWatcher.new_with_files failingWatchOracle files =
            Except.ok ⟨files.length⟩ ∧
          registerTrace failingWatchOracle files = files) :=
  ⟨by decide, by decide,
    new_with_files_first_failure failingWatchOracle
      [[ "a" ]] [[ "b" ]] [ "missing" ] ⟨7⟩ (by decide) (by decide)⟩

/-- With a nonzero ratio the loop never panics and computes the pure
index-filtered list. -/
theorem gffGo_eq_pure {α : Type} (k : Nat) (hk : k ≠ 0) :
    ∀ (i : Nat) (l : List α), gffGo k i l = some (gffPure k i l) := by
  intro i l
  induction l generalizing i with
  | nil => rfl
  | cons a rest ih =>
    simp [gffGo, gffPure, checkedMod, hk, ih]

/-- The kept indices only depend on the start index modulo the ratio. -/
theorem gffPure_shift {α : Type} (k : Nat) :
    ∀ (l : List α) (i : Nat), gffPure k (i + k) l = gffPure k i l := by
  intro l
  induction l with
  | nil => intro i; rfl
  | cons a rest ih =>
    intro i
    simp only [gffPure]
    have h1 : (i + k) % k = i % k := Nat.add_mod_right i k
    have h2 : i + k + 1 = i + 1 + k := by omega
    rw [h1, h2, ih (i + 1)]

/-- Starting `i > 0` steps into a period of length `k = i + m` skips the
next `m` elements. -/
theorem gffPure_chunk {α : Type} (k : Nat) :
    ∀ (m : Nat) (l : List α) (i : Nat), i + m = k → 0 < i →
      gffPure k i l = gffPure k 0 (l.drop m) := by
  intro m
  induction m with
  | zero =>
    intro l i hm _
    have hik : i = k := by omega
    rw [List.drop_zero, hik]
    have h := gffPure_shift k l 0
    simpa using h
  | succ m ih =>
    intro l i hm hi
    have hne : ¬ i % k = 0 := by
      rw [Nat.mod_eq_of_lt (by omega)]
      omega
    cases l with
    | nil => simp [gffPure]
    | cons a rest =>
      simp only [gffPure, List.drop_succ_cons]
      rw [if_neg hne]
      exact ih rest (i + 1) (by omega) (by omega)

/-- Unfolding: the head survives and the next `k - 1` elements die. -/
theorem gffPure_cons {α : Type} (k : Nat) (hk : 0 < k) (a : α) (l : List α) :
    gffPure k 0 (a :: l) = a :: gffPure k 0 (l.drop (k - 1)) := by
  simp only [gffPure, Nat.zero_mod, if_pos]
  congr 1
  exact gffPure_chunk k (k - 1) l 1 (by omega) (by omega)

/-- The `j`-th kept element is the input's element at index `j * k`. -/
theorem gffPure_get {α : Type} (k : Nat) (hk : 0 < k) :
    ∀ (j : Nat) (l : List α), (gffPure k 0 l).get? j = l.get? (j * k) := by
  intro j
  induction j with
  | zero =>
    intro l
    cases l with
    | nil => rfl
    | cons a rest => simp [gffPure_cons k hk]
  | succ j ih =>
    intro l
    cases l with
    | nil => simp [gffPure]
    | cons a rest =>
      rw [gffPure_cons k hk, List.get?_cons_succ, ih (rest.drop (k - 1)),
        List.get?_drop]
      have h : (j + 1) * k = (k - 1 + j * k) + 1 := by
        have hmul : (j + 1) * k = j * k + k := by ring
        omega
      rw [h, List.get?_cons_succ]

/-- The number of kept elements is the ceiling of `length / k`. -/
theorem gffPure_length {α : Type} (k : Nat) (hk : 0 < k) (l : List α) :
    (gffPure k 0 l).length = (l.length + k - 1) / k := by
  have key : ∀ j : Nat, (gffPure k 0 l).length ≤ j ↔ l.length ≤ j * k := by
    intro j
    rw [← List.get?_eq_none, gffPure_get k hk, List.get?_eq_none]
  generalize hL : (gffPure k 0 l).length = L at key ⊢
  rcases Nat.eq_zero_or_pos L with h0 | hpos
  · have hlen : l.length = 0 := by simpa using (key 0).mp (by omega)
    rw [h0, hlen, Nat.zero_add]
    exact (Nat.div_eq_of_lt (by omega)).symm
  · obtain ⟨M, rfl⟩ : ∃ M, L = M + 1 := ⟨L - 1, by omega⟩
    have h1 : l.length ≤ (M + 1) * k := (key (M + 1)).mp (Nat.le_refl _)
    have h2 : ¬ l.length ≤ M * k := by
      intro hcon
      have := (key M).mpr hcon
      omega
    have e1 : (M + 1) * k = M * k + k := by ring
    apply le_antisymm
    · rw [Nat.le_div_iff_mul_le hk]
      omega
    · have hlt : (l.length + k - 1) / k < M + 1 + 1 := by
        rw [Nat.div_lt_iff_lt_mul hk]
        have e2 : (M + 1 + 1) * k = M * k + k + k := by ring
        omega
      exact Nat.lt_succ_iff.mp hlt

/-- Claim C4: for every file list and every ratio `k ≥ 1`,
`get_filtered_files` succeeds and returns exactly the elements at indices
`0, k, 2k, …` of the input (`l.get? j = all.get? (j * k)` for every `j`),
so the returned list has exactly `⌈M / k⌉ = (M + k - 1) / k` elements. -/
theorem get_filtered_files_spec {α : Type} (all_files : List α) (k : Nat)
    (hk : 1 ≤ k) :
    ∃ l, get_filtered_files all_files k = some l ∧
      l.length = (all_files.length + k - 1) / k ∧
      ∀ j : Nat, l.get? j = all_files.get? (j * k) := by
  refine ⟨gffPure k 0 all_files, ?_, ?_, ?_⟩
  · exact gffGo_eq_pure k (by omega) 0 all_files
  · exact gffPure_length k (by omega) all_files
  · intro j
    exact gffPure_get k (by omega) j all_files

/-- Claim C4, witness: the list `[10, 20, 30, 40, 50]` with ratio 2 — the
result keeps indices 0, 2, 4 and has `⌈5 / 2⌉ = 3` elements. -/
theorem get_filtered_files_spec_witness :
    1 ≤ 2 ∧ ∃ l, get_filtered_files [10, 20, 30, 40, 50] 2 = some l ∧
      l.length = (List.length [10, 20, 30, 40, 50] + 2 - 1) / 2 ∧
      ∀ j : Nat, l.get? j = List.get? [10, 20, 30, 40, 50] (j * 2) :=
  ⟨by omega, get_filtered_files_spec [10, 20, 30, 40, 50] 2 (by omega)⟩

/-! Lemmas about the enumerator, by mutual induction on the tree. -/

mutual

/-- Length of an entry's contribution to the walk, on all-readable trees. -/
theorem lenEntry (e : FsEntry) (name : String) (base : List String)
    (h : allReadable e = true) :
    (match e with
     | FsEntry.dir _ _ => collect_files_recursive_impl (base ++ [name]) e
     | FsEntry.file => [base ++ [name]]
     | FsEntry.other => ([] : List Path)).length = countFiles e := by
  cases e with
  | file => rfl
  | other => rfl
  | dir b d =>
    cases b with
    | false => simp [allReadable] at h
    | true =>
      simp only [allReadable, Bool.true_and] at h
      simp only [collect_files_recursive_impl, countFiles]
      exact lenD d (base ++ [name]) h

/-- On an all-readable directory the walk yields one path per file. -/
theorem lenD (d : FsDir) (base : List String) (h : allReadableD d = true) :
    (collectDirEntries base d).length = countFilesD d := by
  cases d with
  | nil => rfl
  | cons name e rest =>
    simp only [allReadableD, Bool.and_eq_true] at h
    simp only [collectDirEntries, countFilesD, List.length_append]
    rw [lenEntry e name base h.1, lenD rest base h.2]

end

mutual

/-- Every walked path strictly extends the base. -/
theorem shapeEntry (e : FsEntry) (base : List String) (p : Path)
    (hp : p ∈ collect_files_recursive_impl base e) :
    ∃ n q, p = base ++ n :: q := by
  cases e with
  | file => simp [collect_files_recursive_impl] at hp
  | other => simp [collect_files_recursive_impl] at hp
  | dir b d =>
    cases b with
    | false => simp [collect_files_recursive_impl] at hp
    | true =>
      simp only [collect_files_recursive_impl] at hp
      obtain ⟨n, q, hq, _⟩ := shapeD d base p hp
      exact ⟨n, q, hq⟩

/-- Every walked path extends the base by a listed name. -/
theorem shapeD (d : FsDir) (base : List String) (p : Path)
    (hp : p ∈ collectDirEntries base d) :
    ∃ n q, p = base ++ n :: q ∧ n ∈ dirNames d := by
  cases d with
  | nil => simp [collectDirEntries] at hp
  | cons name e rest =>
    simp only [collectDirEntries, List.mem_append] at hp
    rcases hp with hp | hp
    · cases e with
      | file =>
        simp only [List.mem_singleton] at hp
        exact ⟨name, [], hp, by simp [dirNames]⟩
      | other => simp at hp
      | dir b d' =>
        obtain ⟨n', q', hq⟩ := shapeEntry (FsEntry.dir b d') (base ++ [name]) p hp
        refine ⟨name, n' :: q', ?_, by simp [dirNames]⟩
        rw [hq]
        simp
    · obtain ⟨n, q, hq, hn⟩ := shapeD rest base p hp
      exact ⟨n, q, hq, by simp [dirNames, hn]⟩

end

mutual

/-- Under distinct sibling names the walk never repeats a path. -/
theorem nodupEntry (e : FsEntry) (base : List String) (hv : validNames e = true) :
    (collect_files_recursive_impl base e).Nodup := by
  cases e with
  | file => simp [collect_files_recursive_impl]
  | other => simp [collect_files_recursive_impl]
  | dir b d =>
    cases b with
    | false => simp [collect_files_recursive_impl]
    | true =>
      simp only [validNames, Bool.and_eq_true, decide_eq_true_eq] at hv
      simp only [collect_files_recursive_impl]
      exact nodupD d base hv.1 hv.2

/-- The walked paths of a directory with distinct names are distinct. -/
theorem nodupD (d : FsDir) (base : List String) (hnd : (dirNames d).Nodup)
    (hv : validNamesD d = true) :
    (collectDirEntries base d).Nodup := by
  cases d with
  | nil => simp [collectDirEntries]
  | cons name e rest =>
    simp only [validNamesD, Bool.and_eq_true] at hv
    simp only [dirNames, List.nodup_cons] at hnd
    simp only [collectDirEntries, List.nodup_append]
    refine ⟨?_, nodupD rest base hnd.2 hv.2, ?_⟩
    · cases e with
      | file => simp
      | other => simp
      | dir b d' => exact nodupEntry (FsEntry.dir b d') (base ++ [name]) hv.1
    · intro p hp1 hp2
      obtain ⟨n2, q2, hq2, hn2⟩ := shapeD rest base p hp2
      have hhead : ∃ q1, p = base ++ name :: q1 := by
        cases e with
        | file =>
          simp only [List.mem_singleton] at hp1
          exact ⟨[], hp1⟩
        | other => simp at hp1
        | dir b d' =>
          obtain ⟨n', q', hq'⟩ := shapeEntry (FsEntry.dir b d') (base ++ [name]) p hp1
          refine ⟨n' :: q', ?_⟩
          rw [hq']
          simp
      obtain ⟨q1, hq1⟩ := hhead
      rw [hq1] at hq2
      have hcons := List.append_cancel_left hq2
      have hname : name = n2 := by
        injection hcons
      subst hname
      exact hnd.1 hn2

end

/-- A successful lookup means the name is listed. -/
theorem find_mem_dirNames (d : FsDir) (n : String) (e : FsEntry)
    (h : d.find n = some e) : n ∈ dirNames d := by
  cases d with
  | nil => simp [FsDir.find] at h
  | cons name e' rest =>
    simp only [FsDir.find] at h
    by_cases hn : name = n
    · simp [dirNames, hn]
    · rw [if_neg hn] at h
      simp [dirNames, find_mem_dirNames rest n e h]

mutual

/-- Under distinct sibling names every walked path resolves, from the node
the walk started at, to a regular file. -/
theorem resolveEntry (e : FsEntry) (base : List String) (p : Path)
    (hv : validNames e = true)
    (hp : p ∈ collect_files_recursive_impl base e) :
    ∃ q, p = base ++ q ∧ resolve e q = some FsEntry.file := by
  cases e with
  | file => simp [collect_files_recursive_impl] at hp
  | other => simp [collect_files_recursive_impl] at hp
  | dir b d =>
    cases b with
    | false => simp [collect_files_recursive_impl] at hp
    | true =>
      simp only [validNames, Bool.and_eq_true, decide_eq_true_eq] at hv
      simp only [collect_files_recursive_impl] at hp
      obtain ⟨n, q, hq, e', hfind, hres⟩ := resolveD d base p hv.1 hv.2 hp
      refine ⟨n :: q, hq, ?_⟩
      simp only [resolve, hfind]
      exact hres

/-- Directory version of `resolveEntry`: the path enters by a findable name. -/
theorem resolveD (d : FsDir) (base : List String) (p : Path)
    (hnd : (dirNames d).Nodup) (hv : validNamesD d = true)
    (hp : p ∈ collectDirEntries base d) :
    ∃ n q, p = base ++ n :: q ∧
      ∃ e, FsDir.find d n = some e ∧ resolve e q = some FsEntry.file := by
  cases d with
  | nil => simp [collectDirEntries] at hp
  | cons name e rest =>
    simp only [validNamesD, Bool.and_eq_true] at hv
    simp only [dirNames, List.nodup_cons] at hnd
    simp only [collectDirEntries, List.mem_append] at hp
    rcases hp with hp | hp
    · cases e with
      | file =>
        simp only [List.mem_singleton] at hp
        refine ⟨name, [], hp, FsEntry.file, ?_, rfl⟩
        simp [FsDir.find]
      | other => simp at hp
      | dir b d' =>
        obtain ⟨q, hq, hres⟩ :=
          resolveEntry (FsEntry.dir b d') (base ++ [name]) p hv.1 hp
        refine ⟨name, q, ?_, FsEntry.dir b d', ?_, hres⟩
        · rw [hq]
          simp
        · simp [FsDir.find]
    · obtain ⟨n, q, hq, e', hfind, hres⟩ := resolveD rest base p hnd.2 hv.2 hp
      have hmem : n ∈ dirNames rest := find_mem_dirNames rest n e' hfind
      have hne : ¬ name = n := by
        intro hcontra
        rw [hcontra] at hnd
        exact hnd.1 hmem
      refine ⟨n, q, hq, e', ?_, hres⟩
      simp only [FsDir.find]
      rw [if_neg hne]
      exact hfind

end

/-- Claim C5: on a fixed tree whose root is a directory, with every
directory readable, no irregular entries and distinct sibling names,
`collect_files_recursive` returns exactly `countFiles` paths, pairwise
distinct, and every returned path resolves in the tree to a regular file —
so directories and non-regular entries never appear in the output. -/
theorem collect_files_recursive_complete (b : Bool) (d : FsDir)
    (hr : allReadable (FsEntry.dir b d) = true)
    (hn : noOther (FsEntry.dir b d) = true)
    (hv : validNames (FsEntry.dir b d) = true) :
    (collect_files_recursive (FsEntry.dir b d)).length =
        countFiles (FsEntry.dir b d) ∧
    (collect_files_recursive (FsEntry.dir b d)).Nodup ∧
    ∀ p ∈ collect_files_recursive (FsEntry.dir b d),
      resolve (FsEntry.dir b d) p = some FsEntry.file := by
  have hb : b = true := by
    cases b
    · simp [allReadable] at hr
    · rfl
  subst hb
  have hr' : allReadableD d = true := by
    simpa [allReadable] using hr
  have hv1 : (dirNames d).Nodup ∧ validNamesD d = true := by
    simpa [validNames] using hv
  refine ⟨?_, ?_, ?_⟩
  · simp only [collect_files_recursive, collect_files_recursive_impl, countFiles]
    exact lenD d [] hr'
  · simp only [collect_files_recursive, collect_files_recursive_impl]
    exact nodupD d [] hv1.1 hv1.2
  · intro p hp
    obtain ⟨q, hq, hres⟩ := resolveEntry (FsEntry.dir true d) [] p hv hp
    rw [show p = q by simpa using hq]
    exact hres

/-- A concrete tree: files `a` and `sub/c`, all directories readable. -/
def exampleTree : FsDir :=
  FsDir.cons "a" FsEntry.file
    (FsDir.cons "sub"
      (FsEntry.dir true (FsDir.cons "c" FsEntry.file FsDir.nil))
      FsDir.nil)

/-- Claim C5, witness: the concrete two-file tree `exampleTree`. -/
theorem collect_files_recursive_complete_witness :
    (allReadable (FsEntry.dir true exampleTree) = true ∧
     noOther (FsEntry.dir true exampleTree) = true ∧
     validNames (FsEntry.dir true exampleTree) = true) ∧
    ((collect_files_recursive (FsEntry.dir true exampleTree)).length =
        countFiles (FsEntry.dir true exampleTree) ∧
     (collect_files_recursive (FsEntry.dir true exampleTree)).Nodup ∧
     ∀ p ∈ collect_files_recursive (FsEntry.dir true exampleTree),
       resolve (FsEntry.dir true exampleTree) p = some FsEntry.file) :=
  ⟨⟨by decide, by decide, by decide⟩,
    collect_files_recursive_complete true exampleTree
      (by decide) (by decide) (by decide)⟩

/-! Lemmas for the unreadable-directory claim. -/

mutual

/-- Pruning unreadable directories does not change the walk's output. -/
theorem collect_prune (e : FsEntry) (base : List String) :
    collect_files_recursive_impl base (pruneUnreadable e) =
      collect_files_recursive_impl base e := by
  cases e with
  | file => rfl
  | other => rfl
  | dir b d =>
    cases b with
    | true =>
      simp only [pruneUnreadable, collect_files_recursive_impl]
      exact collect_pruneD d base
    | false => rfl

/-- Directory version of `collect_prune`. -/
theorem collect_pruneD (d : FsDir) (base : List String) :
    collectDirEntries base (pruneUnreadableD d) = collectDirEntries base d := by
  cases d with
  | nil => rfl
  | cons name e rest =>
    have he := collect_prune e (base ++ [name])
    simp only [pruneUnreadableD, collectDirEntries]
    rw [collect_pruneD rest base]
    congr 1
    cases e with
    | file => rfl
    | other => rfl
    | dir b d' =>
      cases b with
      | true =>
        simpa only [pruneUnreadable] using he
      | false =>
        simpa only [pruneUnreadable] using he

end

mutual

/-- The pruned tree is all readable. -/
theorem allReadable_prune (e : FsEntry) :
    allReadable (pruneUnreadable e) = true := by
  cases e with
  | file => rfl
  | other => rfl
  | dir b d =>
    cases b with
    | true =>
      simp only [pruneUnreadable, allReadable, Bool.true_and]
      exact allReadable_pruneD d
    | false => rfl

/-- Directory version of `allReadable_prune`. -/
theorem allReadable_pruneD (d : FsDir) :
    allReadableD (pruneUnreadableD d) = true := by
  cases d with
  | nil => rfl
  | cons name e rest =>
    simp only [pruneUnreadableD, allReadableD]
    rw [allReadable_prune e, allReadable_pruneD rest]
    rfl

end

/-- Claim C6: enumeration never surfaces an error (it is a total function
into path lists); a directory that fails to open contributes nothing, and
the whole result equals the walk of the tree in which every unreadable
directory is replaced by an empty readable one — exactly the files gathered
from every readable part of the tree. -/
theorem collect_partial_results (t : FsEntry) :
    collect_files_recursive t = collect_files_recursive (pruneUnreadable t) ∧
    allReadable (pruneUnreadable t) = true ∧
    ∀ d : FsDir, collect_files_recursive (FsEntry.dir false d) = [] :=
  ⟨(collect_prune t []).symm, allReadable_prune t, fun _ => rfl⟩

end WatcherBench
